import Mathlib

/-!
Verification of the py-radix prefix-trie engine and its Python binding layer
(`radix_python.c`).

The binding layer (`Radix_add`, `Radix_delete`, `Radix_search_exact`,
`Radix_search_best`, `Radix_nodes`, `Radix_prefixes`, the iterator object) is
embedded directly from `src/radix_python.c`.  The underlying engine
(`radix.c`: `radix_lookup`, `radix_search_exact`, `radix_search_best`,
`radix_remove`, `RADIX_WALK`, the prefix type and its text rendering) is not
part of the source tree, so those definitions are modelled from the
specification (sections 3, 4.2-4.7) and are marked as such in their doc
comments.

A stored prefix is represented by its address family together with the list
of its significant bits (most significant bit first); per the specification
only the first `bitlen` bits of an address are significant for comparison,
so a prefix of bit length `n` is exactly a bit list of length `n`.
-/

/-- Modelled from the spec: the address family of a prefix (`AF_INET` or
`AF_INET6`). -/
inductive Fam where
  | ipv4 : Fam
  | ipv6 : Fam
deriving DecidableEq, Repr

/-- Modelled from the spec: the bit width of an address family
(32 for IPv4, 128 for IPv6). -/
def Fam.width : Fam → Nat
  | .ipv4 => 32
  | .ipv6 => 128

/-- Modelled from the spec: a prefix value (`prefix_t` in the missing
`radix.c`): an address family and the significant bits of the address.
The bit length of the prefix is `bits.length`. -/
structure Pfx where
  fam : Fam
  bits : List Bool
deriving DecidableEq, Repr

/-- Modelled from the spec: the payload slot of a data node.  `id` stands
for the identity of the Python `RadixNode` object stored in the node's
`data` field (object identity is what makes two handles "the same"), and
`fam` is the family of the stored prefix. -/
structure RData where
  id : Nat
  fam : Fam
deriving DecidableEq, Repr

/-- Modelled from the spec: a trie vertex (`radix_node_t`).  `stem` is the
full bit path the node stands for, so the node's test-bit position is
`stem.length`; a node with `dat = some _` is a data node whose stored
prefix has exactly the bits `stem`, and a node with `dat = none` is a glue
node.  `nil` is an absent child / the empty tree. -/
inductive RTree where
  | nil : RTree
  | node (stem : List Bool) (dat : Option RData) (l r : RTree) : RTree
deriving DecidableEq, Repr

namespace RTree

/-- Whether a tree is the empty tree (a NULL node pointer). -/
def isNil : RTree → Bool
  | .nil => true
  | .node _ _ _ _ => false

/-- Number of vertices of a tree. -/
def size : RTree → Nat
  | .nil => 0
  | .node _ _ l r => 1 + size l + size r

/-- Depth of a tree: the largest number of vertices on a root-leaf path. -/
def depth : RTree → Nat
  | .nil => 0
  | .node _ _ l r => 1 + max (depth l) (depth r)

/-- Modelled from the spec: the data nodes of the tree in structural
(preorder) traversal order, as pairs of stored significant bits and
payload; this is the order of `RADIX_WALK` in the missing `radix.h`. -/
def entries : RTree → List (List Bool × RData)
  | .nil => []
  | .node s d l r =>
      (match d with | some rd => [(s, rd)] | none => []) ++ entries l ++ entries r

/-- The stored significant-bit strings of the tree. -/
def keys (t : RTree) : List (List Bool) := (entries t).map Prod.fst

end RTree

/-- Longest common prefix of two bit lists. -/
def commonPfx : List Bool → List Bool → List Bool
  | a :: as, b :: bs => if a = b then a :: commonPfx as bs else []
  | _, _ => []

/-- The stem of the root node (meaningful for non-`nil` trees). -/
def rootStem : RTree → List Bool
  | .nil => []
  | .node s _ _ _ => s

/-- Modelled from the spec (section 3, Node invariant): structural
well-formedness of a child subtree: if present, its stem strictly extends
the parent stem `s` followed by the branch bit `b`. -/
def stemOK (s : List Bool) (b : Bool) : RTree → Bool
  | .nil => true
  | .node s' _ _ _ => (s ++ [b]).isPrefixOf s'

/-- Modelled from the spec (section 3): well-formedness of the node graph:
a glue node has exactly two children, and each child's stem extends its
parent's stem followed by the corresponding branch bit. -/
def wfT : RTree → Bool
  | .nil => true
  | .node s d l r =>
      (d.isSome || (!l.isNil && !r.isNil)) &&
      stemOK s false l && stemOK s true r && wfT l && wfT r

/-- Modelled from the spec (section 4.2) and mirroring `radix_lookup` of the
missing `radix.c` as used by `Radix_add`: walk the trie comparing the new
prefix's bits with each node's stem.  An exact match on an existing data
node returns its payload unchanged; an exact match on a glue node turns it
into a data node; otherwise a new data node (with payload id `fresh`) is
created, together with a glue node at the true bit of divergence when the
divergence occurs mid-path.  Returns the new tree and, for an exact match
on an existing data node, its existing payload. -/
def rtInsert (p : Pfx) (fresh : Nat) : RTree → RTree × Option RData
  | .nil => (.node p.bits (some ⟨fresh, p.fam⟩) .nil .nil, none)
  | .node s d l r =>
    if p.bits = s then
      match d with
      | some rd => (.node s (some rd) l r, some rd)
      | none => (.node s (some ⟨fresh, p.fam⟩) l r, none)
    else if s.isPrefixOf p.bits then
      if p.bits.getD s.length false then
        let res := rtInsert p fresh r
        (.node s d l res.1, res.2)
      else
        let res := rtInsert p fresh l
        (.node s d res.1 r, res.2)
    else if p.bits.isPrefixOf s then
      if s.getD p.bits.length false then
        (.node p.bits (some ⟨fresh, p.fam⟩) .nil (.node s d l r), none)
      else
        (.node p.bits (some ⟨fresh, p.fam⟩) (.node s d l r) .nil, none)
    else
      let c := commonPfx p.bits s
      if p.bits.getD c.length false then
        (.node c none (.node s d l r) (.node p.bits (some ⟨fresh, p.fam⟩) .nil .nil), none)
      else
        (.node c none (.node p.bits (some ⟨fresh, p.fam⟩) .nil .nil) (.node s d l r), none)

/-- Modelled from the spec (section 4.4): bit-level exact search: walk by
bit comparison and return the payload of the data node whose stored bits
equal the query's significant bits, if any. -/
def rtSearchExact (q : List Bool) : RTree → Option RData
  | .nil => none
  | .node s d l r =>
    if q = s then d
    else if s.isPrefixOf q then
      if q.getD s.length false then rtSearchExact q r else rtSearchExact q l
    else none

/-- Modelled from the spec (section 4.4): exact search for a prefix:
matches only a data node whose stored prefix equals the query exactly in
family, bit length and significant bits. -/
def radixSearchExact (p : Pfx) (t : RTree) : Option RData :=
  match rtSearchExact p.bits t with
  | some rd => if rd.fam = p.fam then some rd else none
  | none => none

/-- Modelled from the spec (section 4.5): walk the trie along the bit path
of the query, remembering the most recently passed data node whose stored
significant bits are a prefix of the query, until the path is exhausted or
diverges; `acc` is the best match remembered so far. -/
def rtSearchBestAux (q : List Bool) :
    RTree → Option (List Bool × RData) → Option (List Bool × RData)
  | .nil, acc => acc
  | .node s d l r, acc =>
    if s.isPrefixOf q then
      let acc' := match d with | some rd => some (s, rd) | none => acc
      if s.length < q.length then
        if q.getD s.length false then rtSearchBestAux q r acc'
        else rtSearchBestAux q l acc'
      else acc'
    else acc

/-- Modelled from the spec (section 4.5): longest-prefix ("best") match:
the most specific stored prefix whose significant bits are a prefix of the
query's, or `none`. -/
def rtSearchBest (q : List Bool) (t : RTree) : Option (List Bool × RData) :=
  rtSearchBestAux q t none

/-- Modelled from the spec (section 4.3): removal of the data node whose
stored bits are exactly `q` (if there is one), followed by structural
compaction: a data node with two children merely becomes a glue node, a
node left with at most one child is replaced by its surviving child, and a
glue parent left with a single child is replaced by that child. -/
def rtDelete (q : List Bool) : RTree → RTree
  | .nil => .nil
  | .node s d l r =>
    if q = s then
      match d with
      | none => .node s d l r
      | some _ =>
        match l, r with
        | .nil, c => c
        | c, .nil => c
        | _, _ => .node s none l r
    else if s.isPrefixOf q then
      if q.getD s.length false then
        let r' := rtDelete q r
        if r'.isNil && d.isNone then l else .node s d l r'
      else
        let l' := rtDelete q l
        if l'.isNil && d.isNone then r else .node s d l' r
    else .node s d l r

/-- Numeric value of a bit list, most significant bit first. -/
def bitsToNat (bs : List Bool) : Nat :=
  bs.foldl (fun a b => 2 * a + (if b then 1 else 0)) 0

/-- Pad a bit list with zero bits up to width `w`. -/
def padTo (w : Nat) (bs : List Bool) : List Bool :=
  bs ++ List.replicate (w - bs.length) false

/-- Modelled from the spec: the canonical textual form of the address part
of a prefix (`prefix_addr_ntop` in the missing `radix.c`): dotted-quad
decimal for IPv4, eight colon-separated hexadecimal groups for IPv6, with
non-significant bits zero. -/
def addrNtop (p : Pfx) : String :=
  let x := bitsToNat (padTo p.fam.width p.bits)
  match p.fam with
  | .ipv4 =>
      toString (x / 2 ^ 24 % 256) ++ "." ++ toString (x / 2 ^ 16 % 256) ++ "." ++
        toString (x / 2 ^ 8 % 256) ++ "." ++ toString (x % 256)
  | .ipv6 =>
      String.intercalate ":"
        ((List.range 8).map (fun i => String.mk (Nat.toDigits 16 (x / 2 ^ (16 * (7 - i)) % 65536))))

/-- Modelled from the spec: the canonical CIDR string of a prefix
(`prefix_ntop` in the missing `radix.c`): the address followed by a slash
and the bit length. -/
def pfxNtop (p : Pfx) : String :=
  addrNtop p ++ "/" ++ toString p.bits.length

/-- From `radix_python.c`, `RadixNodeObject`: the Python-visible handle
object.  `prefixStr` is the node's `prefix` attribute (the field is named
`prefix` in the source).  The mutable `data` dict (`user_attr`) is the
caller-owned metadata slot; its identity is the object's identity, which is
modelled by the `RData.id` key under which the object is stored. -/
structure RadixNodeObject where
  network : String
  prefixStr : String
  prefixlen : Nat
  family : Fam
  packed : List Bool
deriving DecidableEq, Repr

/-- From `radix_python.c`, `newRadixNodeObject`: build the handle object
for a node whose stored prefix is `p`, duplicating the prefix's identity
into the object's read-only attributes. -/
def mkNodeObj (p : Pfx) : RadixNodeObject :=
  { network := addrNtop p
    prefixStr := pfxNtop p
    prefixlen := p.bits.length
    family := p.fam
    packed := padTo p.fam.width p.bits }

/-- The Python exception kinds raised by the binding layer. -/
inductive PyErr where
  | typeError : PyErr
  | valueError : PyErr
  | keyError : PyErr
  | memoryError : PyErr
  | runtimeWarning : PyErr
deriving DecidableEq, Repr

deriving instance DecidableEq for Except

/-- From `radix_python.c`, `RadixObject`: the tree object: the engine tree,
the bound family (`-1`, i.e. `none`, until the first successful add), the
generation counter `gen_id` (a C `unsigned int`, hence counted modulo
`2 ^ 32`), plus bookkeeping for the Python handle objects hanging off the
data nodes: `nextId` is the next fresh object identity and `objs` maps each
identity to the object created for it. -/
structure RadixObject where
  root : RTree
  family : Option Fam
  gen_id : Nat
  nextId : Nat
  objs : List (Nat × RadixNodeObject)
deriving DecidableEq, Repr

/-- Number of stored prefixes of the tree (the spec's `count`). -/
def RadixObject.count (ro : RadixObject) : Nat := (ro.root.entries).length

/-- The stored prefixes of the tree, as prefix values. -/
def storedPfxs (ro : RadixObject) : List Pfx :=
  (ro.root.entries).map (fun e => ⟨e.2.fam, e.1⟩)

/-- From `radix_python.c`, `Radix_add` after the family check: call the
engine lookup and, if the found node carries no handle object yet, create
one (`newRadixNodeObject`) and store it in the node's `data` slot; then
increment `gen_id` and return the node's handle.  The identity of the
returned handle object is returned. -/
def addLookup (ro : RadixObject) (p : Pfx) : RadixObject × Except PyErr Nat :=
  match rtInsert p ro.nextId ro.root with
  | (t', some rd) =>
      ({ ro with root := t', gen_id := (ro.gen_id + 1) % 2 ^ 32 }, .ok rd.id)
  | (t', none) =>
      ({ ro with
          root := t'
          gen_id := (ro.gen_id + 1) % 2 ^ 32
          nextId := ro.nextId + 1
          objs := (ro.nextId, mkNodeObj p) :: ro.objs }, .ok ro.nextId)

/-- From `radix_python.c`, `Radix_add`: bind the tree's family on the first
add, reject a prefix of the other family with `ValueError`, and otherwise
perform the engine lookup.  Returns the new state and the identity of the
returned handle object. -/
def Radix_add (ro : RadixObject) (p : Pfx) : RadixObject × Except PyErr Nat :=
  match ro.family with
  | none => addLookup { ro with family := some p.fam } p
  | some f => if p.fam = f then addLookup ro p else (ro, .error .valueError)

/-- From `radix_python.c`, `Radix_delete`: exact-search the prefix (note:
no family check is performed here, unlike `Radix_add`); raise `KeyError`
when absent, otherwise drop the node's handle reference, remove the node
and increment `gen_id`. -/
def Radix_delete (ro : RadixObject) (p : Pfx) : RadixObject × Except PyErr Unit :=
  match radixSearchExact p ro.root with
  | none => (ro, .error .keyError)
  | some _ =>
      ({ ro with root := rtDelete p.bits ro.root, gen_id := (ro.gen_id + 1) % 2 ^ 32 }, .ok ())

/-- From `radix_python.c`, `Radix_search_exact`: exact search; returns the
identity of the matched node's handle object, or `None`.  The tree object
is returned unchanged: the function performs no write to `self`. -/
def Radix_search_exact (ro : RadixObject) (p : Pfx) : RadixObject × Option Nat :=
  (ro, (radixSearchExact p ro.root).map RData.id)

/-- From `radix_python.c`, `Radix_search_best`: longest-prefix match;
returns the identity of the best node's handle object, or `None`.  The
tree object is returned unchanged: the function performs no write to
`self`. -/
def Radix_search_best (ro : RadixObject) (p : Pfx) : RadixObject × Option Nat :=
  (ro, (rtSearchBest p.bits ro.root).map (fun e => e.2.id))

/-- From `radix_python.c`, `Radix_nodes`: the handle objects of all data
nodes in traversal order (as identities).  No write to `self`. -/
def Radix_nodes (ro : RadixObject) : RadixObject × List Nat :=
  (ro, (ro.root.entries).map (fun e => e.2.id))

/-- From `radix_python.c`, `Radix_prefixes`: the `prefix` attribute of each
data node's handle object, in traversal order.  No write to `self`. -/
def Radix_prefixes (ro : RadixObject) : RadixObject × List String :=
  (ro, (ro.root.entries).map (fun e => ((ro.objs.lookup e.2.id).map RadixNodeObject.prefixStr).getD ""))

/-- From `radix_python.c`, `RadixIterObject`: the iterator: the explicit
traversal stack `iterstack` (top first; `sp` is its length), the cursor
`rn`, and the generation captured at creation. -/
structure RadixIterObject where
  stack : List RTree
  rn : RTree
  gen_id : Nat
deriving DecidableEq, Repr

/-- From `radix_python.c`, `newRadixIterObject`: create an iterator on a
tree: empty stack, cursor at the root, generation captured. -/
def newRadixIterObject (ro : RadixObject) : RadixIterObject :=
  { stack := [], rn := ro.root, gen_id := ro.gen_id }

/-- From `radix_python.c`, `newRadixIterObject` line `Py_XINCREF(self->parent)`:
the effect of iterator creation on the parent tree object's reference
count: it takes a strong (owning) reference. -/
def newRadixIter_parentRC (rc : Nat) : Nat := rc + 1

/-- From `radix_python.c`, `RadixIter_dealloc` line `Py_XDECREF(self->parent)`:
the effect of iterator destruction on the parent tree object's reference
count: it releases its strong reference. -/
def RadixIter_dealloc_parentRC (rc : Nat) : Nat := rc - 1

/-- From `radix_python.c`, `RadixIter_iternext` lines 615-624: one cursor
advance of the explicit-stack preorder traversal: descend left (pushing the
right child if it exists), else descend right, else pop the stack, else
finish. -/
def iterAdvance : RTree → List RTree → RTree × List RTree
  | .nil, st => (.nil, st)
  | .node _ _ l r, st =>
    match l with
    | .node ls ld ll lr =>
        (.node ls ld ll lr, match r with | .node .. => r :: st | .nil => st)
    | .nil =>
        match r with
        | .node .. => (r, st)
        | .nil =>
            match st with
            | top :: rest => (top, rest)
            | [] => (.nil, [])

/-- Total number of vertices held by a stack of pending subtrees. -/
def stackSize (st : List RTree) : Nat := (st.map RTree.size).sum

/-- From `radix_python.c`, `RadixIter_iternext` loop at label `again`:
advance the cursor repeatedly, skipping glue nodes (nodes without payload),
until a data node is visited (returning its payload plus cursor and stack
as left for the next call) or the traversal is exhausted. -/
def iterLoop (rn : RTree) (st : List RTree) : Option (RData × RTree × List RTree) :=
  match h : rn with
  | .nil => none
  | .node _ (some rd) _ _ => some (rd, (iterAdvance rn st).1, (iterAdvance rn st).2)
  | .node _ none _ _ => iterLoop (iterAdvance rn st).1 (iterAdvance rn st).2
termination_by rn.size + stackSize st
decreasing_by
  rw [← h]
  have hne : rn ≠ RTree.nil := by simp [h]
  clear h
  rcases rn with _ | ⟨s, d, l, r⟩
  · exact absurd rfl hne
  · rcases l with _ | ⟨ls, ld, ll, lr⟩
    · rcases r with _ | ⟨rs, rd, rl, rr⟩
      · rcases st with _ | ⟨top, rest⟩
        · simp [iterAdvance, RTree.size, stackSize]
        · simp [iterAdvance, RTree.size, stackSize]
      · simp [iterAdvance, RTree.size, stackSize]
    · rcases r with _ | ⟨rs, rd, rl, rr⟩
      · simp [iterAdvance, RTree.size, stackSize]
      · simp [iterAdvance, RTree.size, stackSize] <;> omega

/-- Result of one iterator advance: generation-mismatch error, exhaustion,
or a yielded handle identity. -/
inductive IterResult where
  | err : IterResult
  | stop : IterResult
  | yield (k : Nat) : IterResult
deriving DecidableEq, Repr

/-- From `radix_python.c`, `RadixIter_iternext`: first compare the parent
tree's current generation with the captured one and fail with
`RuntimeWarning` on mismatch, before anything else; otherwise run the
traversal loop.  The parent tree object is returned unchanged: the function
performs no write to it. -/
def RadixIter_iternext (ro : RadixObject) (it : RadixIterObject) :
    RadixObject × IterResult × RadixIterObject :=
  if it.gen_id = ro.gen_id then
    match iterLoop it.rn it.stack with
    | none => (ro, .stop, { stack := [], rn := .nil, gen_id := it.gen_id })
    | some (rd, rn', st') => (ro, .yield rd.id, { stack := st', rn := rn', gen_id := it.gen_id })
  else (ro, .err, it)

/-- Consistency of the handle-object bookkeeping with the tree: every data
node stores the tree's family `f`, its object identity is below the fresh
counter `nid`, and the object table maps that identity to exactly the
object `newRadixNodeObject` built from the node's stored prefix. -/
def dataOK (f : Fam) (objs : List (Nat × RadixNodeObject)) (nid : Nat) : RTree → Bool
  | .nil => true
  | .node s d l r =>
      (match d with
       | some rd =>
           decide (rd.fam = f) && decide (rd.id < nid) &&
             decide (objs.lookup rd.id = some (mkNodeObj ⟨f, s⟩))
       | none => true) &&
      dataOK f objs nid l && dataOK f objs nid r

/-- Invariant of a tree object as maintained by the binding layer: the
generation counter is a 32-bit value, an unbound family means an empty
tree, and a bound family comes with a well-formed node graph whose data
nodes are consistent with the handle-object table. -/
def ROInv (ro : RadixObject) : Bool :=
  decide (ro.gen_id < 2 ^ 32) &&
  (match ro.family with
   | none => ro.root.isNil
   | some f => wfT ro.root && dataOK f ro.objs ro.nextId ro.root)

/-- One read-only operation of the binding layer (the operations of
`radix_python.c` that perform no write to the tree object). -/
inductive ReadOp where
  | sExact (p : Pfx) : ReadOp
  | sBest (p : Pfx) : ReadOp
  | nodes : ReadOp
  | allPfx : ReadOp
  | iterNext : ReadOp
deriving DecidableEq, Repr

/-- Run one read operation on a tree object together with an iterator on
it, keeping the states it returns. -/
def readStep (s : RadixObject × RadixIterObject) (op : ReadOp) :
    RadixObject × RadixIterObject :=
  match op with
  | .sExact p => ((Radix_search_exact s.1 p).1, s.2)
  | .sBest p => ((Radix_search_best s.1 p).1, s.2)
  | .nodes => ((Radix_nodes s.1).1, s.2)
  | .allPfx => ((Radix_prefixes s.1).1, s.2)
  | .iterNext =>
      ((RadixIter_iternext s.1 s.2).1, (RadixIter_iternext s.1 s.2).2.2)

/-- Invariant of the iterator's pending stack during traversal of a tree
of depth at most `D`: every pending subtree is non-empty and, counting
from the top, the entry above `k` remaining entries has depth at most
`D - k - 1`. -/
def StackInv (D : Nat) : List RTree → Prop
  | [] => True
  | top :: rest => top ≠ .nil ∧ top.depth + rest.length + 1 ≤ D ∧ StackInv D rest

/-- The iterator states (cursor, pending stack) reachable by cursor
advances from the initial state on tree `t`. -/
inductive IterReach (t : RTree) : RTree → List RTree → Prop where
  | init : IterReach t t []
  | step (rn : RTree) (st : List RTree) : IterReach t rn st → rn ≠ .nil →
      IterReach t (iterAdvance rn st).1 (iterAdvance rn st).2

/-! Helper lemmas about bit lists. -/

theorem isPrefixOf_eq_true {α : Type} [DecidableEq α] {x y : List α} :
    x.isPrefixOf y = true ↔ x <+: y := List.isPrefixOf_iff_prefix

theorem pre_getD {x y : List Bool} {i : Nat} (h : x <+: y) (hi : i < x.length) :
    y.getD i false = x.getD i false := by
  obtain ⟨t, rfl⟩ := h
  simp [List.getD_eq_getElem?_getD, List.getElem?_append_left hi]

theorem append_single_getD {s : List Bool} {b : Bool} {y : List Bool}
    (h : (s ++ [b]) <+: y) : y.getD s.length false = b := by
  have h1 : y.getD s.length false = (s ++ [b]).getD s.length false :=
    pre_getD h (by simp)
  rw [h1]
  simp [List.getD_eq_getElem?_getD, List.getElem?_append_right (Nat.le_refl s.length)]

theorem commonPfx_pre_left : ∀ a b : List Bool, commonPfx a b <+: a := by
  intro a
  induction a with
  | nil => intro b; cases b <;> simp [commonPfx]
  | cons x xs ih =>
    intro b
    cases b with
    | nil => simp [commonPfx]
    | cons y ys =>
      by_cases h : x = y
      · subst h
        have he : commonPfx (x :: xs) (x :: ys) = x :: commonPfx xs ys := by
          simp [commonPfx]
        rw [he]
        exact List.cons_prefix_cons.mpr ⟨rfl, ih ys⟩
      · simp [commonPfx, h]

theorem commonPfx_pre_right : ∀ a b : List Bool, commonPfx a b <+: b := by
  intro a
  induction a with
  | nil => intro b; cases b <;> simp [commonPfx]
  | cons x xs ih =>
    intro b
    cases b with
    | nil => simp [commonPfx]
    | cons y ys =>
      by_cases h : x = y
      · subst h
        have he : commonPfx (x :: xs) (x :: ys) = x :: commonPfx xs ys := by
          simp [commonPfx]
        rw [he]
        exact List.cons_prefix_cons.mpr ⟨rfl, ih ys⟩
      · simp [commonPfx, h]

theorem commonPfx_eq_left : ∀ a b : List Bool, commonPfx a b = a → a <+: b := by
  intro a
  induction a with
  | nil => intro b _; exact List.nil_prefix
  | cons x xs ih =>
    intro b h
    cases b with
    | nil => simp [commonPfx] at h
    | cons y ys =>
      by_cases hxy : x = y
      · subst hxy
        simp [commonPfx] at h
        exact (List.cons_prefix_cons).mpr ⟨rfl, ih ys h⟩
      · simp [commonPfx, hxy] at h

/-! Structural facts about well-formed trees. -/

theorem isNil_iff {t : RTree} : t.isNil = true ↔ t = .nil := by
  cases t <;> simp [RTree.isNil]

theorem wfT_node {s : List Bool} {d : Option RData} {l r : RTree} :
    wfT (.node s d l r) = true ↔
      (d.isSome = true ∨ (l ≠ .nil ∧ r ≠ .nil)) ∧ stemOK s false l = true ∧
        stemOK s true r = true ∧ wfT l = true ∧ wfT r = true := by
  simp [wfT, Bool.and_eq_true, Bool.or_eq_true, isNil_iff, Bool.not_eq_true',
    Bool.not_eq_true, and_assoc]
  cases l <;> cases r <;> simp [RTree.isNil]

theorem entries_node {s : List Bool} {d : Option RData} {l r : RTree} :
    RTree.entries (.node s d l r) =
      (match d with | some rd => [(s, rd)] | none => []) ++ l.entries ++ r.entries := rfl

/-- In a well-formed tree, every stored bit string extends the root stem. -/
theorem entries_pre : ∀ (t : RTree), wfT t = true →
    ∀ e ∈ t.entries, rootStem t <+: e.1 := by
  intro t
  induction t with
  | nil => intro _ e he; simp [RTree.entries] at he
  | node s d l r ihl ihr =>
    intro hw e he
    rw [wfT_node] at hw
    obtain ⟨-, hsl, hsr, hwl, hwr⟩ := hw
    rw [entries_node] at he
    simp only [List.mem_append] at he
    rcases he with (he | he) | he
    · cases d with
      | some rd => simp at he; subst he; simp [rootStem]
      | none => simp at he
    · cases l with
      | nil => simp [RTree.entries] at he
      | node ls ld ll lr =>
        have h1 : (s ++ [false]) <+: ls := by
          simpa [stemOK, isPrefixOf_eq_true] using hsl
        have h2 := ihl hwl e he
        simp only [rootStem] at h2 ⊢
        exact ((s.prefix_append [false]).trans h1).trans h2
    · cases r with
      | nil => simp [RTree.entries] at he
      | node rs rd rl rr =>
        have h1 : (s ++ [true]) <+: rs := by
          simpa [stemOK, isPrefixOf_eq_true] using hsr
        have h2 := ihr hwr e he
        simp only [rootStem] at h2 ⊢
        exact ((s.prefix_append [true]).trans h1).trans h2

/-- In a well-formed tree, every stored bit string in the `b`-side child of
a node with stem `s` extends `s ++ [b]`. -/
theorem entries_child_pre {s : List Bool} {b : Bool} {c : RTree}
    (hok : stemOK s b c = true) (hw : wfT c = true) :
    ∀ e ∈ c.entries, (s ++ [b]) <+: e.1 := by
  intro e he
  cases c with
  | nil => simp [RTree.entries] at he
  | node cs cd cl cr =>
    have h1 : (s ++ [b]) <+: cs := by simpa [stemOK, isPrefixOf_eq_true] using hok
    exact h1.trans (by simpa [rootStem] using entries_pre _ hw e he)

/-- Soundness of bit-level exact search: whatever it returns is stored. -/
theorem rtSearchExact_mem : ∀ (t : RTree) (q : List Bool) (rd : RData),
    rtSearchExact q t = some rd → (q, rd) ∈ t.entries := by
  intro t
  induction t with
  | nil => intro q rd h; simp [rtSearchExact] at h
  | node s d l r ihl ihr =>
    intro q rd h
    rw [rtSearchExact] at h
    by_cases h1 : q = s
    · subst h1
      rw [if_pos rfl] at h
      rw [entries_node, h]
      simp
    · rw [if_neg h1] at h
      by_cases h2 : s.isPrefixOf q
      · rw [if_pos h2] at h
        rw [entries_node]
        by_cases h3 : q.getD s.length false
        · rw [if_pos h3] at h
          simp [ihr q rd h]
        · rw [if_neg h3] at h
          simp [ihl q rd h]
      · rw [if_neg h2] at h
        exact absurd h (by simp)

/-! Interaction of insert and exact search. -/

/-- A fresh insert makes the inserted bits exactly searchable, with the
fresh payload. -/
theorem rtInsert_new_search : ∀ (t : RTree) (p : Pfx) (fresh : Nat),
    (rtInsert p fresh t).2 = none →
      rtSearchExact p.bits (rtInsert p fresh t).1 = some ⟨fresh, p.fam⟩ := by
  intro t
  induction t with
  | nil =>
    intro p fresh _
    simp [rtInsert, rtSearchExact]
  | node s d l r ihl ihr =>
    intro p fresh hnone
    by_cases h1 : p.bits = s
    · cases d with
      | some rd => simp [rtInsert, h1] at hnone
      | none => simp [rtInsert, h1, rtSearchExact]
    · by_cases h2 : s.isPrefixOf p.bits
      · by_cases h3 : p.bits.getD s.length false
        · simp only [rtInsert, if_neg h1, if_pos h2, if_pos h3] at hnone ⊢
          rw [rtSearchExact, if_neg h1, if_pos h2, if_pos h3]
          exact ihr p fresh hnone
        · simp only [rtInsert, if_neg h1, if_pos h2, if_neg h3] at hnone ⊢
          rw [rtSearchExact, if_neg h1, if_pos h2, if_neg h3]
          exact ihl p fresh hnone
      · by_cases h4 : p.bits.isPrefixOf s
        · by_cases h5 : s.getD p.bits.length false
          · simp only [rtInsert, if_neg h1, if_neg h2, if_pos h4, if_pos h5]
            rw [rtSearchExact, if_pos rfl]
          · simp only [rtInsert, if_neg h1, if_neg h2, if_pos h4, if_neg h5]
            rw [rtSearchExact, if_pos rfl]
        · have hcq : commonPfx p.bits s ≠ p.bits := by
            intro he
            exact h4 (isPrefixOf_eq_true.mpr (commonPfx_eq_left _ _ he))
          have hcpre : (commonPfx p.bits s).isPrefixOf p.bits = true :=
            isPrefixOf_eq_true.mpr (commonPfx_pre_left _ _)
          by_cases h6 : p.bits.getD (commonPfx p.bits s).length false
          · simp only [rtInsert, if_neg h1, if_neg h2, if_neg h4, if_pos h6]
            rw [rtSearchExact, if_neg (Ne.symm hcq), if_pos hcpre, if_pos h6,
              rtSearchExact, if_pos rfl]
          · simp only [rtInsert, if_neg h1, if_neg h2, if_neg h4, if_neg h6]
            rw [rtSearchExact, if_neg (Ne.symm hcq), if_pos hcpre, if_neg h6,
              rtSearchExact, if_pos rfl]

/-- An insert that finds an existing data node returns the tree unchanged
together with the existing payload, which exact search also finds. -/
theorem rtInsert_found : ∀ (t t' : RTree) (p : Pfx) (fresh : Nat) (rd : RData),
    rtInsert p fresh t = (t', some rd) →
      t' = t ∧ rtSearchExact p.bits t = some rd := by
  intro t
  induction t with
  | nil => intro t' p fresh rd h; simp [rtInsert] at h
  | node s d l r ihl ihr =>
    intro t' p fresh rd h
    by_cases h1 : p.bits = s
    · cases d with
      | some rd' =>
        simp only [rtInsert, if_pos h1, Prod.mk.injEq] at h
        obtain ⟨h2, h3⟩ := h
        obtain rfl : rd' = rd := by injection h3
        exact ⟨h2.symm, by rw [rtSearchExact, if_pos h1]⟩
      | none => simp [rtInsert, h1] at h
    · by_cases h2 : s.isPrefixOf p.bits
      · by_cases h3 : p.bits.getD s.length false
        · simp only [rtInsert, if_neg h1, if_pos h2, if_pos h3, Prod.mk.injEq] at h
          obtain ⟨h4, h5⟩ := h
          obtain ⟨h6, h7⟩ := ihr _ p fresh rd (Prod.ext rfl h5)
          constructor
          · rw [← h4]; exact congrArg (RTree.node s d l) h6
          · rw [rtSearchExact, if_neg h1, if_pos h2, if_pos h3]; exact h7
        · simp only [rtInsert, if_neg h1, if_pos h2, if_neg h3, Prod.mk.injEq] at h
          obtain ⟨h4, h5⟩ := h
          obtain ⟨h6, h7⟩ := ihl _ p fresh rd (Prod.ext rfl h5)
          constructor
          · rw [← h4]; exact congrArg (fun x => RTree.node s d x r) h6
          · rw [rtSearchExact, if_neg h1, if_pos h2, if_neg h3]; exact h7
      · by_cases h4 : p.bits.isPrefixOf s
        · by_cases h5 : s.getD p.bits.length false
          · simp only [rtInsert, if_neg h1, if_neg h2, if_pos h4, if_pos h5, Prod.mk.injEq] at h
            exact absurd h.2 (by simp)
          · simp only [rtInsert, if_neg h1, if_neg h2, if_pos h4, if_neg h5, Prod.mk.injEq] at h
            exact absurd h.2 (by simp)
        · by_cases h6 : p.bits.getD (commonPfx p.bits s).length false
          · simp only [rtInsert, if_neg h1, if_neg h2, if_neg h4, if_pos h6, Prod.mk.injEq] at h
            exact absurd h.2 (by simp)
          · simp only [rtInsert, if_neg h1, if_neg h2, if_neg h4, if_neg h6, Prod.mk.injEq] at h
            exact absurd h.2 (by simp)

/-- Inserting bits that exact search already finds is a no-op returning the
existing payload. -/
theorem rtSearch_found_insert : ∀ (t : RTree) (q : List Bool) (rd : RData),
    rtSearchExact q t = some rd → ∀ (f : Fam) (fresh : Nat),
      rtInsert ⟨f, q⟩ fresh t = (t, some rd) := by
  intro t
  induction t with
  | nil => intro q rd h; simp [rtSearchExact] at h
  | node s d l r ihl ihr =>
    intro q rd h f fresh
    by_cases h1 : q = s
    · subst h1
      rw [rtSearchExact, if_pos rfl] at h
      subst h
      simp [rtInsert]
    · rw [rtSearchExact, if_neg h1] at h
      by_cases h2 : s.isPrefixOf q
      · rw [if_pos h2] at h
        by_cases h3 : q.getD s.length false
        · rw [if_pos h3] at h
          have := ihr q rd h f fresh
          simp only [rtInsert, if_neg h1, if_pos h2, if_pos h3, this]
        · rw [if_neg h3] at h
          have := ihl q rd h f fresh
          simp only [rtInsert, if_neg h1, if_pos h2, if_neg h3, this]
      · rw [if_neg h2] at h
        exact absurd h (by simp)

/-! Invariant extraction and the shape of a successful add. -/

theorem radixSearchExact_some {p : Pfx} {t : RTree} {rd : RData}
    (h : radixSearchExact p t = some rd) :
    rtSearchExact p.bits t = some rd ∧ rd.fam = p.fam := by
  cases hs : rtSearchExact p.bits t with
  | none =>
    simp only [radixSearchExact, hs] at h
    exact absurd h (by simp)
  | some rd' =>
    simp only [radixSearchExact, hs] at h
    by_cases hf : rd'.fam = p.fam
    · rw [if_pos hf] at h
      injection h with h
      subst h
      exact ⟨rfl, hf⟩
    · rw [if_neg hf] at h; cases h

theorem dataOK_mem : ∀ (t : RTree) (f : Fam) (objs : List (Nat × RadixNodeObject)) (nid : Nat),
    dataOK f objs nid t = true → ∀ e ∈ t.entries,
      e.2.fam = f ∧ e.2.id < nid ∧ objs.lookup e.2.id = some (mkNodeObj ⟨f, e.1⟩) := by
  intro t
  induction t with
  | nil => intro f objs nid _ e he; simp [RTree.entries] at he
  | node s d l r ihl ihr =>
    intro f objs nid hok e he
    rw [entries_node] at he
    simp only [List.mem_append] at he
    cases d with
    | some rd =>
      simp only [dataOK, Bool.and_eq_true, decide_eq_true_eq, and_assoc] at hok
      obtain ⟨hf1, hf2, hf3, hl, hr⟩ := hok
      rcases he with (he | he) | he
      · simp only [List.mem_singleton] at he
        subst he
        exact ⟨hf1, hf2, hf3⟩
      · exact ihl f objs nid hl e he
      · exact ihr f objs nid hr e he
    | none =>
      simp only [dataOK, Bool.true_and, Bool.and_eq_true] at hok
      obtain ⟨hl, hr⟩ := hok
      rcases he with (he | he) | he
      · simp at he
      · exact ihl f objs nid hl e he
      · exact ihr f objs nid hr e he

theorem ROInv_gen {ro : RadixObject} (h : ROInv ro = true) : ro.gen_id < 2 ^ 32 := by
  rw [ROInv, Bool.and_eq_true, decide_eq_true_eq] at h
  exact h.1

theorem ROInv_none {ro : RadixObject} (h : ROInv ro = true) (hf : ro.family = none) :
    ro.root = .nil := by
  rw [ROInv, Bool.and_eq_true, hf] at h
  exact isNil_iff.mp h.2

theorem ROInv_some {ro : RadixObject} {f : Fam} (h : ROInv ro = true)
    (hf : ro.family = some f) :
    wfT ro.root = true ∧ dataOK f ro.objs ro.nextId ro.root = true := by
  rw [ROInv, Bool.and_eq_true, hf, Bool.and_eq_true] at h
  exact h.2

/-- Shape of a successful `Radix_add`: the family gets or stays bound to
the prefix's family, the generation is incremented, and the inserted bits
are exactly searchable in the new tree with the returned handle identity;
the payload is either freshly created (and recorded in the object table)
or was already present in the unchanged tree. -/
theorem Radix_add_ok (ro ro₁ : RadixObject) (p : Pfx) (k : Nat)
    (h : Radix_add ro p = (ro₁, .ok k)) :
    ro₁.family = some p.fam ∧
    (∀ f, ro.family = some f → p.fam = f) ∧
    ro₁.gen_id = (ro.gen_id + 1) % 2 ^ 32 ∧
    ∃ rd : RData, rtSearchExact p.bits ro₁.root = some rd ∧ rd.id = k ∧
      ((rd = ⟨ro.nextId, p.fam⟩ ∧ ro₁.objs = (ro.nextId, mkNodeObj p) :: ro.objs ∧
          ro₁.nextId = ro.nextId + 1) ∨
       (rtSearchExact p.bits ro.root = some rd ∧ ro₁.root = ro.root ∧
          ro₁.objs = ro.objs ∧ ro₁.nextId = ro.nextId)) := by
  have hgo : ∃ ro' : RadixObject, addLookup ro' p = (ro₁, .ok k) ∧
      ro'.family = some p.fam ∧ ro'.root = ro.root ∧ ro'.gen_id = ro.gen_id ∧
      ro'.nextId = ro.nextId ∧ ro'.objs = ro.objs ∧
      (∀ f, ro.family = some f → p.fam = f) := by
    cases hf : ro.family with
    | none =>
      refine ⟨{ ro with family := some p.fam }, ?_, rfl, rfl, rfl, rfl, rfl, ?_⟩
      · simp only [Radix_add, hf] at h; exact h
      · intro f hff
        exact absurd hff (by simp)
    | some f =>
      by_cases hpf : p.fam = f
      · refine ⟨ro, ?_, by simp [hf, hpf], rfl, rfl, rfl, rfl, ?_⟩
        · simp only [Radix_add, hf] at h
          rw [if_pos hpf] at h
          exact h
        · intro f' hf'
          injection hf' with hf'
          rw [← hf']
          exact hpf
      · simp only [Radix_add, hf] at h
        rw [if_neg hpf, Prod.mk.injEq] at h
        exact absurd h.2 (by simp)
  obtain ⟨ro', hal, hfam, hroot, hgen, hnid, hobjs, himp⟩ := hgo
  cases hins : rtInsert p ro'.nextId ro'.root with
  | mk t' fnd =>
    cases fnd with
    | some rd =>
      rw [addLookup, hins] at hal
      rw [Prod.mk.injEq] at hal
      obtain ⟨h1, h2⟩ := hal
      injection h2 with h2
      subst h2
      subst h1
      obtain ⟨hsame, hsearch⟩ := rtInsert_found _ _ _ _ _ hins
      subst hsame
      refine ⟨hfam, himp, by simp [hgen], rd, ?_, rfl, Or.inr ?_⟩
      · simpa [hroot] using hsearch
      · exact ⟨by rw [← hroot]; exact hsearch, by simp [hroot], by simp [hobjs], by simp [hnid]⟩
    | none =>
      rw [addLookup, hins] at hal
      rw [Prod.mk.injEq] at hal
      obtain ⟨h1, h2⟩ := hal
      injection h2 with h2
      subst h2
      subst h1
      have hs := rtInsert_new_search ro'.root p ro'.nextId (by rw [hins])
      rw [hins] at hs
      refine ⟨hfam, himp, by simp [hgen], ⟨ro'.nextId, p.fam⟩, by simpa using hs, by simp [hnid],
        Or.inl ?_⟩
      exact ⟨by rw [hnid], by simp [hnid, hobjs], by simp [hnid]⟩

/-! Claim theorems. -/

/-- C2: for every valid prefix P, a successful `insert(P)` followed by
`search_exact(P)` on the same tree returns a handle whose `prefix`,
`prefixlen` and `family` fields equal P's canonical CIDR string, bit
length and address family. -/
theorem c2_insert_then_search_exact (ro ro₁ : RadixObject) (p : Pfx) (k : Nat)
    (hinv : ROInv ro = true) (hval : p.bits.length ≤ p.fam.width)
    (hadd : Radix_add ro p = (ro₁, .ok k)) :
    ∃ obj : RadixNodeObject, (Radix_search_exact ro₁ p).2 = some k ∧
      ro₁.objs.lookup k = some obj ∧
      obj.prefixStr = pfxNtop p ∧ obj.prefixlen = p.bits.length ∧ obj.family = p.fam := by
  obtain ⟨hfam, himp, hgen, rd, hsearch, hid, hcase⟩ := Radix_add_ok ro ro₁ p k hadd
  rcases hcase with ⟨hrd, hobjs, hnid⟩ | ⟨hpre, hroot, hobjs, hnid⟩
  · have hfamrd : rd.fam = p.fam := by rw [hrd]
    have hra : radixSearchExact p ro₁.root = some rd := by
      simp only [radixSearchExact, hsearch]
      rw [if_pos hfamrd]
    have hk : k = ro.nextId := by rw [← hid, hrd]
    refine ⟨mkNodeObj p, ?_, ?_, rfl, rfl, rfl⟩
    · simp [Radix_search_exact, hra, hid]
    · simp [hobjs, hk, List.lookup]
  · cases hf : ro.family with
    | none =>
      rw [ROInv_none hinv hf] at hpre
      simp [rtSearchExact] at hpre
    | some f =>
      have hpf : p.fam = f := himp f hf
      obtain ⟨-, hdok⟩ := ROInv_some hinv hf
      have hmem := rtSearchExact_mem _ _ _ hpre
      obtain ⟨hrdf, -, hlook⟩ := dataOK_mem _ _ _ _ hdok _ hmem
      have hfamrd : rd.fam = p.fam := by rw [hrdf, hpf]
      have hra : radixSearchExact p ro₁.root = some rd := by
        simp only [radixSearchExact, hsearch]
        rw [if_pos hfamrd]
      have hpeq : (⟨f, p.bits⟩ : Pfx) = p := by rw [← hpf]
      refine ⟨mkNodeObj p, ?_, ?_, rfl, rfl, rfl⟩
      · simp [Radix_search_exact, hra, hid]
      · rw [hobjs, ← hid, ← hpeq]
        exact hlook

/-- C2 witness: a concrete insert followed by an exact search on a fresh
tree. -/
theorem c2_witness :
    ∃ obj : RadixNodeObject,
      (Radix_search_exact
          { root := .node [true] (some ⟨0, .ipv4⟩) .nil .nil, family := some .ipv4,
            gen_id := 1, nextId := 1, objs := [(0, mkNodeObj ⟨.ipv4, [true]⟩)] }
          ⟨.ipv4, [true]⟩).2 = some 0 ∧
      (RadixObject.objs
          { root := .node [true] (some ⟨0, .ipv4⟩) .nil .nil, family := some .ipv4,
            gen_id := 1, nextId := 1, objs := [(0, mkNodeObj ⟨.ipv4, [true]⟩)] }).lookup 0 =
        some obj ∧
      obj.prefixStr = pfxNtop ⟨.ipv4, [true]⟩ ∧
      obj.prefixlen = (Pfx.bits ⟨.ipv4, [true]⟩).length ∧ obj.family = Pfx.fam ⟨.ipv4, [true]⟩ :=
  c2_insert_then_search_exact
    { root := .nil, family := none, gen_id := 0, nextId := 0, objs := [] }
    { root := .node [true] (some ⟨0, .ipv4⟩) .nil .nil, family := some .ipv4,
      gen_id := 1, nextId := 1, objs := [(0, mkNodeObj ⟨.ipv4, [true]⟩)] }
    ⟨.ipv4, [true]⟩ 0 (by decide) (by decide) (by decide)

/-- C3: a second `insert` of an exactly identical prefix returns the same
handle (the same object identity, hence the same metadata slot), leaves
the count unchanged, and still increments the generation counter. -/
theorem c3_duplicate_add (ro ro₁ ro₂ : RadixObject) (p : Pfx) (k k' : Nat)
    (h₁ : Radix_add ro p = (ro₁, .ok k)) (h₂ : Radix_add ro₁ p = (ro₂, .ok k')) :
    k' = k ∧ ro₂.root = ro₁.root ∧ ro₂.count = ro₁.count ∧
      ro₂.gen_id = (ro₁.gen_id + 1) % 2 ^ 32 := by
  obtain ⟨hfam, -, -, rd, hsearch, hid, -⟩ := Radix_add_ok ro ro₁ p k h₁
  have hins : rtInsert p ro₁.nextId ro₁.root = (ro₁.root, some rd) :=
    rtSearch_found_insert ro₁.root p.bits rd hsearch p.fam ro₁.nextId
  simp only [Radix_add, hfam, if_true] at h₂
  simp only [addLookup, hins] at h₂
  rw [Prod.mk.injEq] at h₂
  obtain ⟨hA, hB⟩ := h₂
  injection hB with hB
  subst hA
  refine ⟨by rw [← hB, hid], rfl, rfl, rfl⟩

/-- C3 witness: a concrete duplicate insert. -/
theorem c3_witness :
    (0 : Nat) = 0 ∧
    RadixObject.root
        { root := .node [true] (some ⟨0, .ipv4⟩) .nil .nil, family := some .ipv4,
          gen_id := 2, nextId := 1, objs := [(0, mkNodeObj ⟨.ipv4, [true]⟩)] } =
      RadixObject.root
        { root := .node [true] (some ⟨0, .ipv4⟩) .nil .nil, family := some .ipv4,
          gen_id := 1, nextId := 1, objs := [(0, mkNodeObj ⟨.ipv4, [true]⟩)] } ∧
    RadixObject.count
        { root := .node [true] (some ⟨0, .ipv4⟩) .nil .nil, family := some .ipv4,
          gen_id := 2, nextId := 1, objs := [(0, mkNodeObj ⟨.ipv4, [true]⟩)] } =
      RadixObject.count
        { root := .node [true] (some ⟨0, .ipv4⟩) .nil .nil, family := some .ipv4,
          gen_id := 1, nextId := 1, objs := [(0, mkNodeObj ⟨.ipv4, [true]⟩)] } ∧
    RadixObject.gen_id
        { root := .node [true] (some ⟨0, .ipv4⟩) .nil .nil, family := some .ipv4,
          gen_id := 2, nextId := 1, objs := [(0, mkNodeObj ⟨.ipv4, [true]⟩)] } =
      (RadixObject.gen_id
          { root := .node [true] (some ⟨0, .ipv4⟩) .nil .nil, family := some .ipv4,
            gen_id := 1, nextId := 1, objs := [(0, mkNodeObj ⟨.ipv4, [true]⟩)] } + 1) % 2 ^ 32 :=
  c3_duplicate_add
    { root := .nil, family := none, gen_id := 0, nextId := 0, objs := [] }
    { root := .node [true] (some ⟨0, .ipv4⟩) .nil .nil, family := some .ipv4,
      gen_id := 1, nextId := 1, objs := [(0, mkNodeObj ⟨.ipv4, [true]⟩)] }
    { root := .node [true] (some ⟨0, .ipv4⟩) .nil .nil, family := some .ipv4,
      gen_id := 2, nextId := 1, objs := [(0, mkNodeObj ⟨.ipv4, [true]⟩)] }
    ⟨.ipv4, [true]⟩ 0 0 (by decide) (by decide)

/-- C4: the first successful insert binds the tree's family; once bound,
an insert of a prefix of the other family fails with `ValueError` and the
state is returned completely unchanged (same root, count and
generation). -/
theorem c4_family_mismatch (ro : RadixObject) (p : Pfx) :
    (ro.family = none → ((Radix_add ro p).1).family = some p.fam) ∧
    (∀ f, ro.family = some f → p.fam ≠ f → Radix_add ro p = (ro, .error .valueError)) := by
  constructor
  · intro hf
    simp only [Radix_add, hf]
    cases hins : rtInsert p ro.nextId ro.root with
    | mk t' fnd =>
      cases fnd <;> simp [addLookup, hins]
  · intro f hf hne
    simp only [Radix_add, hf]
    rw [if_neg hne]

/-- C4 witness: binding on first insert, and a concrete rejected
cross-family insert. -/
theorem c4_witness :
    ((Radix_add { root := .nil, family := none, gen_id := 0, nextId := 0, objs := [] }
        ⟨.ipv4, [true]⟩).1).family = some .ipv4 ∧
    Radix_add
        { root := .node [true] (some ⟨0, .ipv4⟩) .nil .nil, family := some .ipv4,
          gen_id := 1, nextId := 1, objs := [(0, mkNodeObj ⟨.ipv4, [true]⟩)] }
        ⟨.ipv6, []⟩ =
      ({ root := .node [true] (some ⟨0, .ipv4⟩) .nil .nil, family := some .ipv4,
          gen_id := 1, nextId := 1, objs := [(0, mkNodeObj ⟨.ipv4, [true]⟩)] },
        .error .valueError) :=
  ⟨(c4_family_mismatch _ _).1 rfl, (c4_family_mismatch _ _).2 .ipv4 rfl (by decide)⟩

/-- C6: deleting a prefix that is not stored fails with `KeyError` and
returns the state completely unchanged (in particular `count` and
`generation` are unchanged). -/
theorem c6_delete_absent (ro : RadixObject) (p : Pfx) (h : p ∉ storedPfxs ro) :
    Radix_delete ro p = (ro, .error .keyError) := by
  cases hs : radixSearchExact p ro.root with
  | none => simp only [Radix_delete, hs]
  | some rd =>
    obtain ⟨hbit, hfam⟩ := radixSearchExact_some hs
    have hmem := rtSearchExact_mem _ _ _ hbit
    refine absurd ?_ h
    simp only [storedPfxs, List.mem_map]
    exact ⟨(p.bits, rd), hmem, by rw [hfam]⟩

/-- C6 witness: a concrete failed delete on a tree not containing the
prefix. -/
theorem c6_witness :
    Radix_delete
        { root := .node [true] (some ⟨0, .ipv4⟩) .nil .nil, family := some .ipv4,
          gen_id := 1, nextId := 1, objs := [(0, mkNodeObj ⟨.ipv4, [true]⟩)] }
        ⟨.ipv4, [false]⟩ =
      ({ root := .node [true] (some ⟨0, .ipv4⟩) .nil .nil, family := some .ipv4,
          gen_id := 1, nextId := 1, objs := [(0, mkNodeObj ⟨.ipv4, [true]⟩)] },
        .error .keyError) :=
  c6_delete_absent _ _ (by decide)

/-- C7 counterexample: `Radix_delete` never raises the family-mismatch
`ValueError`: deleting an IPv6 prefix from an IPv4-bound tree fails with
`KeyError` (the not-found error), not with the `FamilyMismatch`
`ValueError` the claim asserts. -/
theorem c7_counterexample :
    Radix_delete
        { root := .node [] (some ⟨0, .ipv4⟩) .nil .nil, family := some .ipv4,
          gen_id := 1, nextId := 1, objs := [(0, mkNodeObj ⟨.ipv4, []⟩)] }
        ⟨.ipv6, []⟩ =
      ({ root := .node [] (some ⟨0, .ipv4⟩) .nil .nil, family := some .ipv4,
          gen_id := 1, nextId := 1, objs := [(0, mkNodeObj ⟨.ipv4, []⟩)] },
        .error .keyError) ∧
    (Radix_delete
        { root := .node [] (some ⟨0, .ipv4⟩) .nil .nil, family := some .ipv4,
          gen_id := 1, nextId := 1, objs := [(0, mkNodeObj ⟨.ipv4, []⟩)] }
        ⟨.ipv6, []⟩).2 ≠ .error .valueError := by
  constructor
  · decide
  · decide

/-- C7 amended: `Radix_delete` performs no family check of its own; on a
family-bound tree a delete of a prefix of the other family is rejected,
but with the not-found `KeyError` (because the family-comparing exact
search finds nothing), never with the `FamilyMismatch` `ValueError`, and
the state is unchanged. -/
theorem c7_amended_delete_no_family_check (ro : RadixObject) (p : Pfx) (f : Fam)
    (hinv : ROInv ro = true) (hf : ro.family = some f) (hne : p.fam ≠ f) :
    Radix_delete ro p = (ro, .error .keyError) := by
  cases hs : radixSearchExact p ro.root with
  | none => simp only [Radix_delete, hs]
  | some rd =>
    obtain ⟨hbit, hfam⟩ := radixSearchExact_some hs
    have hmem := rtSearchExact_mem _ _ _ hbit
    obtain ⟨-, hdok⟩ := ROInv_some hinv hf
    obtain ⟨hrdf, -, -⟩ := dataOK_mem _ _ _ _ hdok _ hmem
    have : p.fam = f := by rw [← hfam, hrdf]
    exact absurd this hne

/-- C7 witness: a concrete cross-family delete failing with `KeyError`. -/
theorem c7_witness :
    Radix_delete
        { root := .node [] (some ⟨0, .ipv4⟩) .nil .nil, family := some .ipv4,
          gen_id := 1, nextId := 1, objs := [(0, mkNodeObj ⟨.ipv4, []⟩)] }
        ⟨.ipv6, [true]⟩ =
      ({ root := .node [] (some ⟨0, .ipv4⟩) .nil .nil, family := some .ipv4,
          gen_id := 1, nextId := 1, objs := [(0, mkNodeObj ⟨.ipv4, []⟩)] },
        .error .keyError) :=
  c7_amended_delete_no_family_check _ _ .ipv4 (by decide) rfl (by decide)

/-- C5: an iterator created on a tree, after a successful `insert` or
`delete` on that tree, fails with the concurrent-modification error on its
next advance (it never returns an entry), because the advance compares the
tree's current generation with the captured one before anything else. -/
theorem c5_mutation_invalidates_iterator (ro : RadixObject) (hlt : ro.gen_id < 2 ^ 32) :
    (∀ (p : Pfx) (ro₁ : RadixObject) (k : Nat), Radix_add ro p = (ro₁, .ok k) →
        (RadixIter_iternext ro₁ (newRadixIterObject ro)).2.1 = .err) ∧
    (∀ (p : Pfx) (ro₁ : RadixObject), Radix_delete ro p = (ro₁, .ok ()) →
        (RadixIter_iternext ro₁ (newRadixIterObject ro)).2.1 = .err) := by
  have hgenne : ∀ g : Nat, g < 2 ^ 32 → g ≠ (g + 1) % 2 ^ 32 := by
    intro g hg
    by_cases hc : g + 1 < 2 ^ 32
    · rw [Nat.mod_eq_of_lt hc]; omega
    · have he : g + 1 = 2 ^ 32 := by omega
      rw [he, Nat.mod_self]; omega
  constructor
  · intro p ro₁ k hadd
    obtain ⟨-, -, hg, -⟩ := Radix_add_ok ro ro₁ p k hadd
    have hne : (newRadixIterObject ro).gen_id ≠ ro₁.gen_id := by
      simp only [newRadixIterObject]
      rw [hg]
      exact hgenne _ hlt
    rw [RadixIter_iternext, if_neg hne]
  · intro p ro₁ hdel
    cases hs : radixSearchExact p ro.root with
    | none =>
      simp only [Radix_delete, hs] at hdel
      rw [Prod.mk.injEq] at hdel
      exact absurd hdel.2 (by simp)
    | some rd =>
      simp only [Radix_delete, hs] at hdel
      rw [Prod.mk.injEq] at hdel
      obtain ⟨hA, -⟩ := hdel
      have hg : ro₁.gen_id = (ro.gen_id + 1) % 2 ^ 32 := by rw [← hA]
      have hne : (newRadixIterObject ro).gen_id ≠ ro₁.gen_id := by
        simp only [newRadixIterObject]
        rw [hg]
        exact hgenne _ hlt
      rw [RadixIter_iternext, if_neg hne]

/-- C5 witness: a concrete insert and a concrete delete, each invalidating
an iterator created beforehand. -/
theorem c5_witness :
    (RadixIter_iternext
        { root := .node [true] (some ⟨0, .ipv4⟩) .nil .nil, family := some .ipv4,
          gen_id := 1, nextId := 1, objs := [(0, mkNodeObj ⟨.ipv4, [true]⟩)] }
        (newRadixIterObject
          { root := .nil, family := none, gen_id := 0, nextId := 0, objs := [] })).2.1 = .err ∧
    (RadixIter_iternext
        { root := .nil, family := some .ipv4,
          gen_id := 2, nextId := 1, objs := [(0, mkNodeObj ⟨.ipv4, [true]⟩)] }
        (newRadixIterObject
          { root := .node [true] (some ⟨0, .ipv4⟩) .nil .nil, family := some .ipv4,
            gen_id := 1, nextId := 1, objs := [(0, mkNodeObj ⟨.ipv4, [true]⟩)] })).2.1 = .err :=
  ⟨(c5_mutation_invalidates_iterator
        { root := .nil, family := none, gen_id := 0, nextId := 0, objs := [] }
        (by decide)).1 ⟨.ipv4, [true]⟩ _ 0 (by decide),
   (c5_mutation_invalidates_iterator
        { root := .node [true] (some ⟨0, .ipv4⟩) .nil .nil, family := some .ipv4,
          gen_id := 1, nextId := 1, objs := [(0, mkNodeObj ⟨.ipv4, [true]⟩)] }
        (by decide)).2 ⟨.ipv4, [true]⟩ _ (by decide)⟩

/-- C8 counterexample: creating an iterator does extend the parent tree
object's lifetime: `newRadixIterObject` increments the parent's reference
count (`Py_XINCREF`), so the count after creation differs from the count
before. -/
theorem c8_counterexample : newRadixIter_parentRC 1 ≠ 1 := by decide

/-- C8 amended: the iterator holds an owning (strong) reference to the
tree it iterates: creation increments the parent's reference count by one
and only the iterator's destruction releases it, so the tree cannot be
destroyed while the iterator exists. -/
theorem c8_amended_iterator_owns_parent (rc : Nat) :
    newRadixIter_parentRC rc = rc + 1 ∧
      RadixIter_dealloc_parentRC (newRadixIter_parentRC rc) = rc := ⟨rfl, rfl⟩

/-- C9: the read operations (`search_exact`, `search_best`, `nodes`,
`prefixes`, iterator advancement) never change the tree object — in
particular, after any sequence of reads the generation counter equals the
generation counter before. -/
theorem c9_reads_preserve_generation (ro : RadixObject) (it : RadixIterObject)
    (ops : List ReadOp) :
    ((ops.foldl readStep (ro, it)).1).gen_id = ro.gen_id := by
  suffices h : ∀ (s : RadixObject × RadixIterObject), (ops.foldl readStep s).1 = s.1 by
    rw [h (ro, it)]
  induction ops with
  | nil => intro s; rfl
  | cons op rest ih =>
    intro s
    rw [List.foldl_cons, ih]
    cases op with
    | sExact p => rfl
    | sBest p => rfl
    | nodes => rfl
    | allPfx => rfl
    | iterNext =>
      show (RadixIter_iternext s.1 s.2).1 = s.1
      rw [RadixIter_iternext]
      by_cases hg : s.2.gen_id = s.1.gen_id
      · rw [if_pos hg]
        cases iterLoop s.2.rn s.2.stack with
        | none => rfl
        | some x => rcases x with ⟨rd, rn', st'⟩; rfl
      · rw [if_neg hg]

/-! Iterator stack bound. -/

theorem stackInv_length : ∀ (D : Nat) (st : List RTree), StackInv D st → st.length ≤ D := by
  intro D st
  induction st with
  | nil => intro _; simp
  | cons top rest ih =>
    intro h
    obtain ⟨hne, hdep, hrest⟩ := h
    have h1 : 1 ≤ top.depth := by
      cases top with
      | nil => exact absurd rfl hne
      | node s d l r => simp [RTree.depth]
    simp only [List.length_cons]
    omega

theorem iterReach_inv : ∀ (t rn : RTree) (st : List RTree), IterReach t rn st →
    rn.depth + st.length ≤ t.depth ∧ StackInv t.depth st := by
  intro t rn st h
  induction h with
  | init => exact ⟨by simp, trivial⟩
  | step rn st hreach hne ih =>
    obtain ⟨hcur, hstack⟩ := ih
    cases rn with
    | nil => exact absurd rfl hne
    | node s d l r =>
      have hcl : l.depth + st.length + 1 ≤ t.depth := by
        have hl := Nat.le_max_left l.depth r.depth
        simp only [RTree.depth] at hcur
        omega
      have hcr : r.depth + st.length + 1 ≤ t.depth := by
        have hr := Nat.le_max_right l.depth r.depth
        simp only [RTree.depth] at hcur
        omega
      cases l with
      | node ls ld ll lr =>
        cases r with
        | node rs rd rl rr =>
          simp only [iterAdvance, List.length_cons]
          refine ⟨by omega, ?_, by omega, hstack⟩
          simp
        | nil =>
          simp only [iterAdvance]
          exact ⟨by omega, hstack⟩
      | nil =>
        cases r with
        | node rs rd rl rr =>
          simp only [iterAdvance]
          exact ⟨by omega, hstack⟩
        | nil =>
          cases st with
          | cons top rest =>
            simp only [iterAdvance]
            obtain ⟨hne', hd, hrest⟩ := hstack
            exact ⟨by simp only [List.length_cons] at hcl ⊢; omega, hrest⟩
          | nil =>
            simp only [iterAdvance]
            exact ⟨by simp [RTree.depth], trivial⟩

/-- C10: during iteration over a tree whose depth does not exceed the
address bit width `W`, the iterator's explicit stack never holds more than
`W + 1` entries, so every push into the fixed-capacity
`iterstack[RADIX_MAXBITS+1]` array stays in bounds. -/
theorem c10_iterator_stack_bounded (W : Nat) (t rn : RTree) (st : List RTree)
    (hd : t.depth ≤ W) (hr : IterReach t rn st) : st.length ≤ W + 1 := by
  obtain ⟨-, hstack⟩ := iterReach_inv t rn st hr
  have := stackInv_length t.depth st hstack
  omega

/-- C10 witness: a concrete reachable iterator state (after one advance on
a two-leaf tree, the right child is pending on the stack). -/
theorem c10_witness :
    ((iterAdvance
        (.node [] none (.node [false] (some ⟨0, .ipv4⟩) .nil .nil)
          (.node [true] (some ⟨1, .ipv4⟩) .nil .nil)) []).2).length ≤ 32 + 1 :=
  c10_iterator_stack_bounded 32
    (.node [] none (.node [false] (some ⟨0, .ipv4⟩) .nil .nil)
      (.node [true] (some ⟨1, .ipv4⟩) .nil .nil)) _ _ (by decide)
    (IterReach.step _ [] IterReach.init (by decide))

/-! Longest-prefix-match correctness. -/

theorem branch_contra {s s' q : List Bool} {b : Bool}
    (h1 : (s ++ [b]) <+: s') (h2 : s' <+: q)
    (h3 : q.getD s.length false ≠ b) : False := by
  have hlen : s.length < s'.length := by
    have := h1.length_le
    simp only [List.length_append, List.length_singleton] at this
    omega
  have e1 : s'.getD s.length false = b := append_single_getD h1
  have e2 : q.getD s.length false = s'.getD s.length false := pre_getD h2 hlen
  exact h3 (by rw [e2, e1])

theorem bestAux_spec : ∀ (t : RTree) (q : List Bool) (acc : Option (List Bool × RData)),
    wfT t = true →
    (∀ s₀ e₀, acc = some (s₀, e₀) → s₀ <+: q ∧
      ∀ s d l r, t = RTree.node s d l r → s₀.length ≤ s.length) →
    ((rtSearchBestAux q t acc = acc ∨
        ∃ s rd, rtSearchBestAux q t acc = some (s, rd) ∧ (s, rd) ∈ t.entries ∧ s <+: q) ∧
     (∀ s' rd', (s', rd') ∈ t.entries → s' <+: q →
        ∃ s rd, rtSearchBestAux q t acc = some (s, rd) ∧ s'.length ≤ s.length) ∧
     (∀ s₀ e₀, acc = some (s₀, e₀) →
        ∃ s rd, rtSearchBestAux q t acc = some (s, rd) ∧ s₀.length ≤ s.length)) := by
  intro t
  induction t with
  | nil =>
    intro q acc _ _
    refine ⟨Or.inl rfl, ?_, ?_⟩
    · intro s' rd' hmem
      simp [RTree.entries] at hmem
    · intro s₀ e₀ ha
      exact ⟨s₀, e₀, by simp [rtSearchBestAux, ha], Nat.le_refl _⟩
  | node s d l r ihl ihr =>
    intro q acc hwf haccok
    rw [wfT_node] at hwf
    obtain ⟨hglue, hsl, hsr, hwl, hwr⟩ := hwf
    by_cases hsq : s.isPrefixOf q
    · have hsqp : s <+: q := isPrefixOf_eq_true.mp hsq
      by_cases hlen : s.length < q.length
      · by_cases hb : q.getD s.length false
        · -- descend into the right child
          cases d with
          | some rd =>
            have hres : rtSearchBestAux q (.node s (some rd) l r) acc =
                rtSearchBestAux q r (some (s, rd)) := by
              simp only [rtSearchBestAux, if_pos hsq, if_pos hlen, if_pos hb]
            have haccok' : ∀ s₀ e₀, (some (s, rd) : Option (List Bool × RData)) = some (s₀, e₀) →
                s₀ <+: q ∧ ∀ cs cd cl cr, r = RTree.node cs cd cl cr → s₀.length ≤ cs.length := by
              intro s₀ e₀ he
              have hs₀ : s₀ = s := (congrArg Prod.fst (Option.some.inj he)).symm
              refine ⟨by rw [hs₀]; exact hsqp, ?_⟩
              intro cs cd cl cr hr'
              subst hr'
              have hx : (s ++ [true]) <+: cs := by
                simpa [stemOK, isPrefixOf_eq_true] using hsr
              have hxl := hx.length_le
              simp only [List.length_append, List.length_singleton] at hxl
              rw [hs₀]
              omega
            obtain ⟨ih1, ih2, ih3⟩ := ihr q (some (s, rd)) hwr haccok'
            refine ⟨?_, ?_, ?_⟩
            · rcases ih1 with heq | ⟨s₂, rd₂, hres₂, hmem₂, hpre₂⟩
              · right
                exact ⟨s, rd, by rw [hres, heq], by rw [entries_node]; simp, hsqp⟩
              · right
                refine ⟨s₂, rd₂, by rw [hres]; exact hres₂, ?_, hpre₂⟩
                rw [entries_node]
                simp only [List.mem_append]
                exact Or.inr hmem₂
            · intro s' rd' hmem hpre
              rw [entries_node] at hmem
              simp only [List.mem_append] at hmem
              rcases hmem with (hm | hm) | hm
              · simp only [List.mem_singleton] at hm
                have hs' : s' = s := congrArg Prod.fst hm
                obtain ⟨s₂, rd₂, hres₂, hle⟩ := ih3 s rd rfl
                exact ⟨s₂, rd₂, by rw [hres]; exact hres₂, by rw [hs']; exact hle⟩
              · exact (branch_contra (entries_child_pre hsl hwl _ hm) hpre (fun hc => by rw [hc] at hb; exact Bool.noConfusion hb)).elim
              · obtain ⟨s₂, rd₂, hres₂, hle⟩ := ih2 s' rd' hm hpre
                exact ⟨s₂, rd₂, by rw [hres]; exact hres₂, hle⟩
            · intro s₀ e₀ ha
              obtain ⟨hpre₀, hbound₀⟩ := haccok s₀ e₀ ha
              have hb₀ : s₀.length ≤ s.length := hbound₀ s (some rd) l r rfl
              obtain ⟨s₂, rd₂, hres₂, hle⟩ := ih3 s rd rfl
              exact ⟨s₂, rd₂, by rw [hres]; exact hres₂, by omega⟩
          | none =>
            have hres : rtSearchBestAux q (.node s none l r) acc =
                rtSearchBestAux q r acc := by
              simp only [rtSearchBestAux, if_pos hsq, if_pos hlen, if_pos hb]
            have haccok' : ∀ s₀ e₀, acc = some (s₀, e₀) → s₀ <+: q ∧
                ∀ cs cd cl cr, r = RTree.node cs cd cl cr → s₀.length ≤ cs.length := by
              intro s₀ e₀ ha
              obtain ⟨hpre₀, hbound₀⟩ := haccok s₀ e₀ ha
              refine ⟨hpre₀, ?_⟩
              intro cs cd cl cr hr'
              have hb₀ := hbound₀ s none l r rfl
              subst hr'
              have hx : (s ++ [true]) <+: cs := by
                simpa [stemOK, isPrefixOf_eq_true] using hsr
              have := hx.length_le
              simp only [List.length_append, List.length_singleton] at this
              omega
            obtain ⟨ih1, ih2, ih3⟩ := ihr q acc hwr haccok'
            refine ⟨?_, ?_, ?_⟩
            · rcases ih1 with heq | ⟨s₂, rd₂, hres₂, hmem₂, hpre₂⟩
              · left
                rw [hres]
                exact heq
              · right
                refine ⟨s₂, rd₂, by rw [hres]; exact hres₂, ?_, hpre₂⟩
                rw [entries_node]
                simp only [List.mem_append]
                exact Or.inr hmem₂
            · intro s' rd' hmem hpre
              rw [entries_node] at hmem
              simp only [List.mem_append] at hmem
              rcases hmem with (hm | hm) | hm
              · simp at hm
              · exact (branch_contra (entries_child_pre hsl hwl _ hm) hpre (fun hc => by rw [hc] at hb; exact Bool.noConfusion hb)).elim
              · obtain ⟨s₂, rd₂, hres₂, hle⟩ := ih2 s' rd' hm hpre
                exact ⟨s₂, rd₂, by rw [hres]; exact hres₂, hle⟩
            · intro s₀ e₀ ha
              obtain ⟨s₂, rd₂, hres₂, hle⟩ := ih3 s₀ e₀ ha
              exact ⟨s₂, rd₂, by rw [hres]; exact hres₂, hle⟩
        · -- descend into the left child
          cases d with
          | some rd =>
            have hres : rtSearchBestAux q (.node s (some rd) l r) acc =
                rtSearchBestAux q l (some (s, rd)) := by
              simp only [rtSearchBestAux, if_pos hsq, if_pos hlen, if_neg hb]
            have haccok' : ∀ s₀ e₀, (some (s, rd) : Option (List Bool × RData)) = some (s₀, e₀) →
                s₀ <+: q ∧ ∀ cs cd cl cr, l = RTree.node cs cd cl cr → s₀.length ≤ cs.length := by
              intro s₀ e₀ he
              have hs₀ : s₀ = s := (congrArg Prod.fst (Option.some.inj he)).symm
              refine ⟨by rw [hs₀]; exact hsqp, ?_⟩
              intro cs cd cl cr hl'
              subst hl'
              have hx : (s ++ [false]) <+: cs := by
                simpa [stemOK, isPrefixOf_eq_true] using hsl
              have hxl := hx.length_le
              simp only [List.length_append, List.length_singleton] at hxl
              rw [hs₀]
              omega
            obtain ⟨ih1, ih2, ih3⟩ := ihl q (some (s, rd)) hwl haccok'
            refine ⟨?_, ?_, ?_⟩
            · rcases ih1 with heq | ⟨s₂, rd₂, hres₂, hmem₂, hpre₂⟩
              · right
                exact ⟨s, rd, by rw [hres, heq], by rw [entries_node]; simp, hsqp⟩
              · right
                refine ⟨s₂, rd₂, by rw [hres]; exact hres₂, ?_, hpre₂⟩
                rw [entries_node]
                simp only [List.mem_append]
                exact Or.inl (Or.inr hmem₂)
            · intro s' rd' hmem hpre
              rw [entries_node] at hmem
              simp only [List.mem_append] at hmem
              rcases hmem with (hm | hm) | hm
              · simp only [List.mem_singleton] at hm
                have hs' : s' = s := congrArg Prod.fst hm
                obtain ⟨s₂, rd₂, hres₂, hle⟩ := ih3 s rd rfl
                exact ⟨s₂, rd₂, by rw [hres]; exact hres₂, by rw [hs']; exact hle⟩
              · obtain ⟨s₂, rd₂, hres₂, hle⟩ := ih2 s' rd' hm hpre
                exact ⟨s₂, rd₂, by rw [hres]; exact hres₂, hle⟩
              · exact (branch_contra (entries_child_pre hsr hwr _ hm) hpre hb).elim
            · intro s₀ e₀ ha
              obtain ⟨hpre₀, hbound₀⟩ := haccok s₀ e₀ ha
              have hb₀ : s₀.length ≤ s.length := hbound₀ s (some rd) l r rfl
              obtain ⟨s₂, rd₂, hres₂, hle⟩ := ih3 s rd rfl
              exact ⟨s₂, rd₂, by rw [hres]; exact hres₂, by omega⟩
          | none =>
            have hres : rtSearchBestAux q (.node s none l r) acc =
                rtSearchBestAux q l acc := by
              simp only [rtSearchBestAux, if_pos hsq, if_pos hlen, if_neg hb]
            have haccok' : ∀ s₀ e₀, acc = some (s₀, e₀) → s₀ <+: q ∧
                ∀ cs cd cl cr, l = RTree.node cs cd cl cr → s₀.length ≤ cs.length := by
              intro s₀ e₀ ha
              obtain ⟨hpre₀, hbound₀⟩ := haccok s₀ e₀ ha
              refine ⟨hpre₀, ?_⟩
              intro cs cd cl cr hl'
              have hb₀ := hbound₀ s none l r rfl
              subst hl'
              have hx : (s ++ [false]) <+: cs := by
                simpa [stemOK, isPrefixOf_eq_true] using hsl
              have := hx.length_le
              simp only [List.length_append, List.length_singleton] at this
              omega
            obtain ⟨ih1, ih2, ih3⟩ := ihl q acc hwl haccok'
            refine ⟨?_, ?_, ?_⟩
            · rcases ih1 with heq | ⟨s₂, rd₂, hres₂, hmem₂, hpre₂⟩
              · left
                rw [hres]
                exact heq
              · right
                refine ⟨s₂, rd₂, by rw [hres]; exact hres₂, ?_, hpre₂⟩
                rw [entries_node]
                simp only [List.mem_append]
                exact Or.inl (Or.inr hmem₂)
            · intro s' rd' hmem hpre
              rw [entries_node] at hmem
              simp only [List.mem_append] at hmem
              rcases hmem with (hm | hm) | hm
              · simp at hm
              · obtain ⟨s₂, rd₂, hres₂, hle⟩ := ih2 s' rd' hm hpre
                exact ⟨s₂, rd₂, by rw [hres]; exact hres₂, hle⟩
              · exact (branch_contra (entries_child_pre hsr hwr _ hm) hpre hb).elim
            · intro s₀ e₀ ha
              obtain ⟨s₂, rd₂, hres₂, hle⟩ := ih3 s₀ e₀ ha
              exact ⟨s₂, rd₂, by rw [hres]; exact hres₂, hle⟩
      · -- exhausted: the stem equals the query
        have hseq : s = q := hsqp.eq_of_length (Nat.le_antisymm hsqp.length_le (Nat.le_of_not_lt hlen))
        cases d with
        | some rd =>
          have hres : rtSearchBestAux q (.node s (some rd) l r) acc = some (s, rd) := by
            simp only [rtSearchBestAux, if_pos hsq, if_neg hlen]
          refine ⟨?_, ?_, ?_⟩
          · right
            exact ⟨s, rd, hres, by rw [entries_node]; simp, hsqp⟩
          · intro s' rd' hmem hpre
            rw [entries_node] at hmem
            simp only [List.mem_append] at hmem
            rcases hmem with (hm | hm) | hm
            · simp only [List.mem_singleton] at hm
              have hs' : s' = s := congrArg Prod.fst hm
              exact ⟨s, rd, hres, by rw [hs']⟩
            · exfalso
              have hx := (entries_child_pre hsl hwl _ hm).length_le
              have hy := hpre.length_le
              simp only [List.length_append, List.length_singleton] at hx
              rw [hseq] at hx
              omega
            · exfalso
              have hx := (entries_child_pre hsr hwr _ hm).length_le
              have hy := hpre.length_le
              simp only [List.length_append, List.length_singleton] at hx
              rw [hseq] at hx
              omega
          · intro s₀ e₀ ha
            obtain ⟨-, hbound₀⟩ := haccok s₀ e₀ ha
            exact ⟨s, rd, hres, hbound₀ s (some rd) l r rfl⟩
        | none =>
          have hres : rtSearchBestAux q (.node s none l r) acc = acc := by
            simp only [rtSearchBestAux, if_pos hsq, if_neg hlen]
          refine ⟨Or.inl hres, ?_, ?_⟩
          · intro s' rd' hmem hpre
            rw [entries_node] at hmem
            simp only [List.mem_append] at hmem
            rcases hmem with (hm | hm) | hm
            · simp at hm
            · exfalso
              have hx := (entries_child_pre hsl hwl _ hm).length_le
              have hy := hpre.length_le
              simp only [List.length_append, List.length_singleton] at hx
              rw [hseq] at hx
              omega
            · exfalso
              have hx := (entries_child_pre hsr hwr _ hm).length_le
              have hy := hpre.length_le
              simp only [List.length_append, List.length_singleton] at hx
              rw [hseq] at hx
              omega
          · intro s₀ e₀ ha
            exact ⟨s₀, e₀, by rw [hres, ha], Nat.le_refl _⟩
    · -- the stem diverges from the query: nothing below matches
      have hres : rtSearchBestAux q (.node s d l r) acc = acc := by
        simp only [rtSearchBestAux, if_neg hsq]
      have hsq' : ¬ s <+: q := fun hc => hsq (isPrefixOf_eq_true.mpr hc)
      refine ⟨Or.inl hres, ?_, ?_⟩
      · intro s' rd' hmem hpre
        rw [entries_node] at hmem
        simp only [List.mem_append] at hmem
        rcases hmem with (hm | hm) | hm
        · cases d with
          | some rd =>
            simp only [List.mem_singleton] at hm
            have hs' : s' = s := congrArg Prod.fst hm
            rw [hs'] at hpre
            exact absurd hpre hsq'
          | none => simp at hm
        · exact absurd (((s.prefix_append [false]).trans (entries_child_pre hsl hwl _ hm)).trans hpre) hsq'
        · exact absurd (((s.prefix_append [true]).trans (entries_child_pre hsr hwr _ hm)).trans hpre) hsq'
      · intro s₀ e₀ ha
        exact ⟨s₀, e₀, by rw [hres, ha], Nat.le_refl _⟩

/-- C1: on every well-formed tree state, `search_best` returns the stored
data node whose prefix bits are a prefix of (contain) the query and whose
bit length is the longest among all stored containing prefixes, or `none`
when no stored prefix contains the query. -/
theorem c1_search_best_longest_match (t : RTree) (q : List Bool) (hwf : wfT t = true) :
    (∀ s rd, rtSearchBest q t = some (s, rd) →
        (s, rd) ∈ t.entries ∧ s <+: q ∧
          ∀ s' rd', (s', rd') ∈ t.entries → s' <+: q → s'.length ≤ s.length) ∧
    (rtSearchBest q t = none → ∀ s' rd', (s', rd') ∈ t.entries → ¬ s' <+: q) := by
  obtain ⟨h1, h2, -⟩ := bestAux_spec t q none hwf (by intro s₀ e₀ h; cases h)
  constructor
  · intro s rd hres
    rw [rtSearchBest] at hres
    rcases h1 with heq | ⟨s₂, rd₂, hres₂, hmem₂, hpre₂⟩
    · rw [heq] at hres; cases hres
    · rw [hres₂] at hres
      obtain ⟨rfl, rfl⟩ : s₂ = s ∧ rd₂ = rd :=
        ⟨congrArg Prod.fst (Option.some.inj hres), congrArg Prod.snd (Option.some.inj hres)⟩
      refine ⟨hmem₂, hpre₂, ?_⟩
      intro s' rd' hm hp
      obtain ⟨s₃, rd₃, hres₃, hle⟩ := h2 s' rd' hm hp
      rw [hres₂] at hres₃
      have he : s₂ = s₃ := congrArg Prod.fst (Option.some.inj hres₃)
      rw [← he] at hle
      exact hle
  · intro hnone s' rd' hm hp
    obtain ⟨s₃, rd₃, hres₃, -⟩ := h2 s' rd' hm hp
    rw [rtSearchBest] at hnone
    rw [hnone] at hres₃
    cases hres₃

/-- C1 witness: a concrete routing lookup: with `[true]` and
`[true, true]` stored, the query `[true, true, false]` is best-matched by
the longer `[true, true]`. -/
theorem c1_witness :
    ([true, true], (⟨1, Fam.ipv4⟩ : RData)) ∈
        RTree.entries (.node [true] (some ⟨0, .ipv4⟩) .nil
          (.node [true, true] (some ⟨1, .ipv4⟩) .nil .nil)) ∧
    [true, true] <+: [true, true, false] ∧
    ∀ s' rd', (s', rd') ∈
        RTree.entries (.node [true] (some ⟨0, .ipv4⟩) .nil
          (.node [true, true] (some ⟨1, .ipv4⟩) .nil .nil)) →
      s' <+: [true, true, false] → s'.length ≤ [true, true].length :=
  (c1_search_best_longest_match
      (.node [true] (some ⟨0, .ipv4⟩) .nil (.node [true, true] (some ⟨1, .ipv4⟩) .nil .nil))
      [true, true, false] (by decide)).1 [true, true] ⟨1, .ipv4⟩ (by decide)
